import Mathlib

/-!
Verification of the scala import sorter
(src/python/foursquare/source_code_analysis/scala/scala_import_sorter.py).

The repository ships only `scala_import_sorter.py`; the clause data model
(`ScalaImportClause`, its path and symbol classes) and the statement parser
live outside the repository, so those parts are modelled from the spec
(sections 3, 4.1 and 4.3.5), as marked on each definition.  Everything in
the `ScalaImportSorter` namespace is translated directly from the source
file.

Python strings compare lexicographically by code point; we embed that
comparison as a structural recursion on the character lists (`lexLtB`),
which the kernel can evaluate, and we prove it coincides with the standard
list/string lexicographic order.  Python's `sorted` (and `list.sort`) is a
stable sort with respect to the total preorder `cmp(a, b) <= 0`; since the
output of a stable sort is determined uniquely by that preorder and the
input order, we embed it as `List.insertionSort`, which is stable.
-/

namespace Scala

/-- Modelled from the spec (section 3): a dotted package path, an ordered
sequence of identifier segments.  The source reads `path.path_parts[0]`,
`path.path_string` and `path.get_top_level()`; equality is segment-wise
structural equality. -/
structure Path where
  path_parts : List String
deriving DecidableEq

/-- Modelled from the spec: the dotted string form of a path. -/
def Path.path_string (p : Path) : String :=
  String.intercalate "." p.path_parts

/-- Modelled from the spec: the first ("top-level") segment of a path.
Paths produced by the parser are non-empty, so the default is never
reached on real inputs. -/
def Path.get_top_level (p : Path) : String :=
  p.path_parts.headD ""

/-- Modelled from the spec (section 3): one imported symbol, a name plus an
optional rename target (`as_name` in the source); a wildcard is the name
"_". -/
structure Import where
  name : String
  as_name : Option String
deriving DecidableEq

/-- Modelled from the spec (section 4.3.5): an import entry renders as
`name` or `name => alias`. -/
def Import.render (i : Import) : String :=
  match i.as_name with
  | none => i.name
  | some a => i.name ++ " => " ++ a

/-- Modelled from the spec (section 3): a path paired with an ordered
collection of imported symbols. -/
structure ImportClause where
  path : Path
  imports : List Import
deriving DecidableEq

/-- Modelled from the spec (section 4.3.5): the selector part of a rendered
statement: the bare name if there is exactly one import with no alias,
otherwise a brace-enclosed comma-separated list. -/
def ImportClause.selector (c : ImportClause) : String :=
  match c.imports with
  | [i] =>
    match i.as_name with
    | none => i.name
    | some _ => "\x7b" ++ i.render ++ "\x7d"
  | is => "\x7b" ++ String.intercalate ", " (is.map Import.render) ++ "\x7d"

/-- Modelled from the spec (sections 4.1, 4.3.5): the canonical text of the
statement, without leading indentation.  `str(clause)` and
`clause.str_no_indent()` coincide in this model (top-level statements
carry no indentation). -/
def ImportClause.str_no_indent (c : ImportClause) : String :=
  "import " ++ c.path.path_string ++ "." ++ c.selector

/-- Code-point lexicographic strict comparison of character lists: the
comparison Python uses for `str`.  Structural, so the kernel can evaluate
it. -/
def lexLtB : List Char → List Char → Bool
  | _, [] => false
  | [], _ :: _ => true
  | a :: as, b :: bs => if a < b then true else if b < a then false else lexLtB as bs

/-- Embedding of Python's `cmp` on strings: code-point lexicographic,
returning -1, 0 or 1. -/
def py_cmp (s t : String) : Int :=
  if lexLtB s.data t.data then -1 else if lexLtB t.data s.data then 1 else 0

/-- Strict code-point order on strings (Python `s < t`). -/
def keyLt (s t : String) : Prop := lexLtB s.data t.data = true

/-- Non-strict code-point order on strings (Python `s <= t`, i.e. not
`t < s`). -/
def keyLe (s t : String) : Prop := lexLtB t.data s.data = false

/-- Modelled from the spec: `sort_imports` sorts a clause's own imports
before serialization.  The exact order is left open by the source; as the
spec directs, we fix and document a total order: alphabetical by name
(code-point), stable on ties. -/
def import_le (a b : Import) : Prop := keyLe a.name b.name

instance : DecidableRel import_le := fun a b => by unfold import_le keyLe; infer_instance

/-- Modelled from the spec: sort the clause's imports (the
`clause.sort_imports()` call). -/
def ImportClause.sort_imports (c : ImportClause) : ImportClause :=
  { c with imports := List.insertionSort import_le c.imports }

end Scala

open Scala

namespace ScalaImportSorter

open Scala

/-- The `_special_cases` dict from the source: fake sort key prefixes for
the four hoisted top-level packages. -/
def special_cases (s : String) : Option String :=
  if s = "java" then some "aaa0"
  else if s = "javax" then some "aaa1"
  else if s = "scala" then some "aaa2"
  else if s = "scalax" then some "aaa3"
  else none

/-- `string_for_cmp` from `cmp_clauses` in the source: the statement text
with every brace character replaced by a space (Python
`str.replace` on a single-character pattern maps each occurrence). -/
def string_for_cmp (c : ImportClause) : String :=
  String.mk (c.str_no_indent.data.map fun ch => if ch = '\x7b' then ' ' else ch)

/-- `cmp_clauses` from the source (strict mode comparator). -/
def cmp_clauses (l r : ImportClause) : Int :=
  py_cmp (string_for_cmp l) (string_for_cmp r)

/-- The fancy sort key of a clause: the rank prefix from `_special_cases`
(defaulting to the empty string) prepended to the dotted path string.
Written as a function of the path, which is all it reads. -/
def path_key (p : Path) : String :=
  (special_cases p.get_top_level).getD "" ++ p.path_string

/-- The sort key built inside `cmp_clauses_fancy` in the source. -/
def fancy_sort_key (c : ImportClause) : String :=
  path_key c.path

/-- `cmp_clauses_fancy` from the source (fancy mode comparator). -/
def cmp_clauses_fancy (l r : ImportClause) : Int :=
  py_cmp (fancy_sort_key l) (fancy_sort_key r)

/-- The total preorder induced by the strict comparator, used by the
stable sort (`a` may precede `b` iff `cmp(a, b) <= 0`). -/
def strict_le (a b : ImportClause) : Prop := cmp_clauses a b ≤ 0

/-- The total preorder induced by the fancy comparator. -/
def fancy_le (a b : ImportClause) : Prop := cmp_clauses_fancy a b ≤ 0

instance : DecidableRel strict_le := fun a b => by unfold strict_le; infer_instance

instance : DecidableRel fancy_le := fun a b => by unfold fancy_le; infer_instance

/-- The `sorted(clauses, cmp=cmp)` call in `_process_import_block`: a
stable sort under the comparator selected by the fancy flag. -/
def sortClauses (fancy : Bool) (clauses : List ImportClause) : List ImportClause :=
  if fancy then List.insertionSort fancy_le clauses
  else List.insertionSort strict_le clauses

/-- The merge loop of `_process_import_block`, carrying the current clause:
while the next clause's path equals the current clause's path, its imports
are appended to the current clause via `add_import` (preserving each entry's
name and alias); otherwise the current clause is emitted and the next
clause becomes current. -/
def mergeGo (cur : ImportClause) : List ImportClause → List ImportClause
  | [] => [cur]
  | c :: cs =>
    if cur.path = c.path then
      mergeGo { path := cur.path, imports := cur.imports ++ c.imports } cs
    else
      cur :: mergeGo c cs

/-- The merge pass of `_process_import_block` over the sorted clause list:
only adjacent clauses with equal paths are merged. -/
def mergeAdjacent : List ImportClause → List ImportClause
  | [] => []
  | c :: cs => mergeGo c cs

/-- Whether a clause's top-level package is one of the four special cases
(the `clause.path.get_top_level() in ScalaImportSorter._special_cases`
test). -/
def isSpecial (c : ImportClause) : Bool :=
  (special_cases c.path.get_top_level).isSome

/-- The line-emission loop of `_process_import_block`: each clause has its
symbols sorted and is then serialized; in fancy mode a single empty
line is inserted when the loop leaves the special-case block.  The second
argument is the `in_special_case_block` flag. -/
def emitLines (fancy : Bool) : List ImportClause → Bool → List String
  | [], _ => []
  | c :: cs, inSpecial =>
    if fancy && isSpecial c then
      c.sort_imports.str_no_indent :: emitLines fancy cs true
    else if fancy && inSpecial then
      "" :: c.sort_imports.str_no_indent :: emitLines fancy cs false
    else
      c.sort_imports.str_no_indent :: emitLines fancy cs false

/-- `_process_import_block` from the source: sort, merge adjacent
equal-path clauses, then emit the lines joined by newlines with a final
newline. -/
def process_import_block (fancy : Bool) (clauses : List ImportClause) : String :=
  String.intercalate "\n" (emitLines fancy (mergeAdjacent (sortClauses fancy clauses)) false) ++ "\n"

/-- The clause list underlying the processed output: the merged clauses
with their imports sorted, in emission order. -/
def outputClauses (fancy : Bool) (clauses : List ImportClause) : List ImportClause :=
  (mergeAdjacent (sortClauses fancy clauses)).map ImportClause.sort_imports

/-- Modelled from the spec (section 4.2): one import block as the
rewriting substrate hands it to the sorter.  Each clause is paired with
the number of blank lines skipped immediately after it; the collection
loop of `apply_to_rewrite_cursor` overwrites `num_blank_lines` on every
iteration, so only the count after the last statement survives. -/
def collectBlock : List (ImportClause × Nat) → List ImportClause × Nat
  | [] => ([], 0)
  | [(c, n)] => ([c], n)
  | (c, _) :: rest => (c :: (collectBlock rest).1, (collectBlock rest).2)

/-- The per-block emission of `apply_to_rewrite_cursor`: the processed
block text followed by the retained number of blank lines. -/
def blockEmit (fancy : Bool) (items : List (ImportClause × Nat)) : String :=
  process_import_block fancy (collectBlock items).1 ++
    String.mk (List.replicate (collectBlock items).2 '\n')

end ScalaImportSorter

/-- Spec-side definition (for the comparator claims): comparison of
code-point sequences, lexicographic, returning -1, 0 or 1. -/
def lexCmpCodes : List Nat → List Nat → Int
  | [], [] => 0
  | [], _ :: _ => -1
  | _ :: _, [] => 1
  | a :: as, b :: bs =>
    if a < b then -1 else if b < a then 1 else lexCmpCodes as bs

/-- Spec-side definition: the code points of a string. -/
def strCodes (s : String) : List Nat := s.data.map Char.toNat

/-- Spec-side definition (for the fancy comparator claim): the rank
prefix named by the spec, written out by cases. -/
def spec_rank (root : String) : String :=
  if root = "java" then "aaa0"
  else if root = "javax" then "aaa1"
  else if root = "scala" then "aaa2"
  else if root = "scalax" then "aaa3"
  else ""

/-! ### The code-point order: bridge to the standard lexicographic order -/

theorem lexLtB_iff (l m : List Char) : lexLtB l m = true ↔ List.Lex (· < ·) l m := by
  induction l generalizing m with
  | nil =>
    cases m with
    | nil => simp [lexLtB, List.Lex.not_nil_right]
    | cons b bs => simp [lexLtB]; exact List.Lex.nil
  | cons a as ih =>
    cases m with
    | nil => simp [lexLtB, List.Lex.not_nil_right]
    | cons b bs =>
      show (if a < b then true else if b < a then false else lexLtB as bs) = true ↔ _
      rcases lt_trichotomy a b with h | h | h
      · rw [if_pos h]
        exact ⟨fun _ => List.Lex.rel h, fun _ => rfl⟩
      · subst h
        rw [if_neg (lt_irrefl a), if_neg (lt_irrefl a)]
        exact (ih bs).trans List.Lex.cons_iff.symm
      · rw [if_neg (lt_asymm h), if_pos h]
        refine ⟨fun hk => absurd hk (by simp), fun hl => ?_⟩
        cases hl with
        | rel h' => exact absurd h' (lt_asymm h)
        | cons h' => exact absurd h (lt_irrefl a)

theorem lexLtB_eq_false_iff (l m : List Char) :
    lexLtB l m = false ↔ ¬ List.Lex (· < ·) l m := by
  rw [← lexLtB_iff]
  cases lexLtB l m <;> simp

theorem keyLt_iff (s t : String) : keyLt s t ↔ List.Lex (· < ·) s.data t.data :=
  lexLtB_iff s.data t.data

theorem keyLe_iff (s t : String) : keyLe s t ↔ ¬ List.Lex (· < ·) t.data s.data :=
  lexLtB_eq_false_iff t.data s.data

/-- Sanity check for the embedding of Python string comparison: `lexLtB`
agrees with the standard (Mathlib) lexicographic order on `String`. -/
theorem keyLt_iff_string_lt (s t : String) : keyLt s t ↔ s < t := by
  rw [keyLt_iff, String.lt_iff_toList_lt]
  exact Iff.rfl

theorem keyLt_iff_data_lt (s t : String) : keyLt s t ↔ s.data < t.data := by
  rw [keyLt_iff]
  exact Iff.rfl

theorem keyLe_iff_data_le (s t : String) : keyLe s t ↔ s.data ≤ t.data := by
  rw [keyLe_iff]
  exact @not_lt (List Char) _ t.data s.data

theorem keyLe_total (s t : String) : keyLe s t ∨ keyLe t s := by
  rw [keyLe_iff_data_le, keyLe_iff_data_le]
  exact le_total _ _

theorem keyLe_trans {s t u : String} (h1 : keyLe s t) (h2 : keyLe t u) : keyLe s u := by
  rw [keyLe_iff_data_le] at h1 h2 ⊢
  exact le_trans h1 h2

theorem keyLe_antisymm {s t : String} (h1 : keyLe s t) (h2 : keyLe t s) : s = t := by
  rw [keyLe_iff_data_le] at h1 h2
  cases s; cases t
  exact congrArg String.mk (le_antisymm h1 h2)

theorem keyLt_of_keyLt_of_keyLe {s t u : String} (h1 : keyLt s t) (h2 : keyLe t u) :
    keyLt s u := by
  rw [keyLt_iff_data_lt] at h1 ⊢
  rw [keyLe_iff_data_le] at h2
  exact lt_of_lt_of_le h1 h2

theorem keyLt_asymm {s t : String} (h : keyLt s t) : ¬ keyLt t s := by
  rw [keyLt_iff_data_lt] at h ⊢
  exact lt_asymm h

theorem not_keyLt_iff_keyLe {s t : String} : ¬ keyLt s t ↔ keyLe t s := by
  rw [keyLt_iff_data_lt, keyLe_iff_data_le]
  exact @not_lt (List Char) _ s.data t.data

namespace ScalaImportSorter

theorem py_cmp_le_zero_iff (s t : String) : py_cmp s t ≤ 0 ↔ keyLe s t := by
  unfold py_cmp keyLe
  rcases hst : lexLtB s.data t.data with _ | _ <;>
    rcases hts : lexLtB t.data s.data with _ | _ <;> simp [hst, hts]
  exact absurd hts (keyLt_asymm hst)

theorem strict_le_iff (a b : ImportClause) :
    strict_le a b ↔ keyLe (string_for_cmp a) (string_for_cmp b) :=
  py_cmp_le_zero_iff _ _

theorem fancy_le_iff (a b : ImportClause) :
    fancy_le a b ↔ keyLe (fancy_sort_key a) (fancy_sort_key b) :=
  py_cmp_le_zero_iff _ _

instance : IsTotal ImportClause strict_le :=
  ⟨fun a b => by rw [strict_le_iff, strict_le_iff]; exact keyLe_total _ _⟩

instance : IsTrans ImportClause strict_le :=
  ⟨fun a b c hab hbc => by
    rw [strict_le_iff] at hab hbc ⊢; exact keyLe_trans hab hbc⟩

instance : IsTotal ImportClause fancy_le :=
  ⟨fun a b => by rw [fancy_le_iff, fancy_le_iff]; exact keyLe_total _ _⟩

instance : IsTrans ImportClause fancy_le :=
  ⟨fun a b c hab hbc => by
    rw [fancy_le_iff] at hab hbc ⊢; exact keyLe_trans hab hbc⟩

end ScalaImportSorter

instance : IsTotal Scala.Import import_le := ⟨fun _ _ => keyLe_total _ _⟩

instance : IsTrans Scala.Import import_le := ⟨fun _ _ _ => keyLe_trans⟩

theorem keyLe_refl (s : String) : keyLe s s := by
  rw [keyLe_iff_data_le]

/-! ### Stability of the sort with respect to a string key -/

theorem filter_orderedInsert {α : Type} (r : α → α → Prop) [DecidableRel r] (k : α → String)
    (hr : ∀ x y, r x y ↔ keyLe (k x) (k y)) (v : String) (a : α) (l : List α) :
    (List.orderedInsert r a l).filter (fun x => decide (k x = v)) =
      (a :: l).filter (fun x => decide (k x = v)) := by
  induction l with
  | nil => rfl
  | cons b bs ih =>
    by_cases hab : r a b
    · rw [List.orderedInsert, if_pos hab]
    · rw [List.orderedInsert, if_neg hab]
      by_cases hb : k b = v
      · by_cases ha : k a = v
        · exact absurd ((hr a b).mpr (ha ▸ hb ▸ keyLe_refl v)) hab
        · simp [List.filter_cons, hb, ha] at ih ⊢
          exact ih
      · simp [List.filter_cons, hb] at ih ⊢
        exact ih

theorem filter_insertionSort {α : Type} (r : α → α → Prop) [DecidableRel r] (k : α → String)
    (hr : ∀ x y, r x y ↔ keyLe (k x) (k y)) (v : String) (l : List α) :
    (List.insertionSort r l).filter (fun x => decide (k x = v)) =
      l.filter (fun x => decide (k x = v)) := by
  induction l with
  | nil => rfl
  | cons a l ih =>
    rw [List.insertionSort, filter_orderedInsert r k hr v]
    simp only [List.filter_cons, ih]

namespace ScalaImportSorter

/-! ### Structural facts about the merge loop -/

theorem mergeGo_ne_nil (cur : ImportClause) (l : List ImportClause) : mergeGo cur l ≠ [] := by
  induction l generalizing cur with
  | nil => simp [mergeGo]
  | cons c cs ih =>
    rw [mergeGo]
    by_cases h : cur.path = c.path
    · rw [if_pos h]; exact ih _
    · rw [if_neg h]; simp

theorem mergeGo_first (cur : ImportClause) (l : List ImportClause) :
    ∃ imps rest, mergeGo cur l = ⟨cur.path, imps⟩ :: rest ∧ cur.imports <+: imps := by
  induction l generalizing cur with
  | nil => exact ⟨cur.imports, [], rfl, List.prefix_rfl⟩
  | cons c cs ih =>
    rw [mergeGo]
    by_cases h : cur.path = c.path
    · rw [if_pos h]
      obtain ⟨imps, rest, heq, hpre⟩ := ih ⟨cur.path, cur.imports ++ c.imports⟩
      exact ⟨imps, rest, heq, (List.prefix_append _ _).trans hpre⟩
    · rw [if_neg h]
      exact ⟨cur.imports, mergeGo c cs, rfl, List.prefix_rfl⟩

theorem mem_mergeGo_path (cur : ImportClause) (l : List ImportClause) (c : ImportClause)
    (h : c ∈ mergeGo cur l) : c.path = cur.path ∨ c.path ∈ l.map ImportClause.path := by
  induction l generalizing cur with
  | nil =>
    simp [mergeGo] at h
    simp [h]
  | cons d ds ih =>
    rw [mergeGo] at h
    by_cases hd : cur.path = d.path
    · rw [if_pos hd] at h
      rcases ih _ h with h' | h'
      · exact Or.inl h'
      · simp only [List.map_cons, List.mem_cons]
        exact Or.inr (Or.inr h')
    · rw [if_neg hd] at h
      rcases List.mem_cons.mp h with h' | h'
      · exact Or.inl (h' ▸ rfl)
      · rcases ih _ h' with h'' | h''
        · simp only [List.map_cons, List.mem_cons]
          exact Or.inr (Or.inl h'')
        · simp only [List.map_cons, List.mem_cons]
          exact Or.inr (Or.inr h'')

end ScalaImportSorter

namespace ScalaImportSorter

theorem mem_mergeAdjacent_path (l : List ImportClause) (c : ImportClause)
    (h : c ∈ mergeAdjacent l) : c.path ∈ l.map ImportClause.path := by
  cases l with
  | nil => simp [mergeAdjacent] at h
  | cons d ds =>
    rcases mem_mergeGo_path d ds c h with h' | h'
    · simp [h']
    · simp only [List.map_cons, List.mem_cons]
      exact Or.inr h'

theorem filter_mergeAdjacent_nil (l : List ImportClause) (p : Path)
    (h : ∀ c ∈ l, c.path ≠ p) :
    (mergeAdjacent l).filter (fun c => decide (c.path = p)) = [] := by
  rw [List.filter_eq_nil_iff]
  intro c hc
  simp only [decide_eq_true_eq]
  intro heq
  have := mem_mergeAdjacent_path l c hc
  rw [heq] at this
  rcases List.mem_map.mp this with ⟨d, hd, hdp⟩
  exact h d hd hdp

theorem mergeGo_run (cur : ImportClause) (R B : List ImportClause)
    (hR : ∀ c ∈ R, c.path = cur.path) (hB : ∀ c ∈ B, c.path ≠ cur.path) :
    mergeGo cur (R ++ B) =
      ⟨cur.path, cur.imports ++ (R.map ImportClause.imports).flatten⟩ :: mergeAdjacent B := by
  induction R generalizing cur with
  | nil =>
    cases B with
    | nil => simp [mergeGo, mergeAdjacent]
    | cons b bs =>
      rw [List.nil_append, mergeGo,
        if_neg (fun he => hB b (List.mem_cons_self b bs) he.symm)]
      simp [mergeAdjacent]
  | cons r rs ih =>
    rw [List.cons_append, mergeGo, if_pos (hR r (List.mem_cons_self r rs)).symm]
    rw [ih ⟨cur.path, cur.imports ++ r.imports⟩
      (fun c hc => hR c (List.mem_cons_of_mem r hc)) hB]
    simp [List.append_assoc]

theorem mergeGo_filter_run (p : Path) (R B : List ImportClause) (r0 : ImportClause)
    (hR0 : R = r0 :: R.tail) (hRp : ∀ c ∈ R, c.path = p) (hBp : ∀ c ∈ B, c.path ≠ p) :
    ∀ (A : List ImportClause) (cur : ImportClause), cur.path ≠ p → (∀ c ∈ A, c.path ≠ p) →
      (mergeGo cur (A ++ (R ++ B))).filter (fun c => decide (c.path = p)) =
        [⟨p, (R.map ImportClause.imports).flatten⟩] := by
  intro A
  induction A with
  | nil =>
    intro cur hcur _
    rw [List.nil_append, hR0]
    have hr0 : r0.path = p := hRp r0 (hR0 ▸ List.mem_cons_self r0 R.tail)
    rw [List.cons_append, mergeGo, if_neg (fun he => hcur (he.trans hr0))]
    rw [mergeGo_run r0 R.tail B
      (fun c hc => (hRp c (hR0 ▸ List.mem_cons_of_mem r0 hc)).trans hr0.symm)
      (fun c hc he => hBp c hc (he.trans hr0))]
    rw [List.filter_cons, List.filter_cons]
    simp only [decide_eq_true_eq, hcur, ite_false, hr0, ite_true, if_neg hcur, if_pos hr0]
    rw [filter_mergeAdjacent_nil B p hBp]
    rw [hR0]
    simp [hr0]
  | cons a as ih =>
    intro cur hcur hA
    rw [List.cons_append, mergeGo]
    by_cases hca : cur.path = a.path
    · rw [if_pos hca]
      exact ih ⟨cur.path, cur.imports ++ a.imports⟩ hcur
        (fun c hc => hA c (List.mem_cons_of_mem a hc))
    · rw [if_neg hca, List.filter_cons]
      simp only [decide_eq_true_eq, if_neg hcur]
      exact ih a (hA a (List.mem_cons_self a as)) (fun c hc => hA c (List.mem_cons_of_mem a hc))

theorem mergeAdjacent_run (A R B : List ImportClause) (p : Path) (r0 : ImportClause)
    (hR0 : R = r0 :: R.tail) (hRp : ∀ c ∈ R, c.path = p) (hAp : ∀ c ∈ A, c.path ≠ p)
    (hBp : ∀ c ∈ B, c.path ≠ p) :
    (mergeAdjacent (A ++ R ++ B)).filter (fun c => decide (c.path = p)) =
      [⟨p, (R.map ImportClause.imports).flatten⟩] := by
  cases A with
  | nil =>
    have hr0 : r0.path = p := hRp r0 (hR0 ▸ List.mem_cons_self r0 R.tail)
    rw [hR0]
    simp only [List.nil_append]
    rw [List.cons_append, mergeAdjacent]
    rw [mergeGo_run r0 R.tail B
      (fun c hc => (hRp c (hR0 ▸ List.mem_cons_of_mem r0 hc)).trans hr0.symm)
      (fun c hc he => hBp c hc (he.trans hr0))]
    rw [List.filter_cons]
    simp only [decide_eq_true_eq, hr0, if_pos hr0]
    rw [filter_mergeAdjacent_nil B p hBp]
    rw [hR0]
    simp [hr0]
  | cons a as =>
    rw [List.append_assoc, List.cons_append, mergeAdjacent]
    exact mergeGo_filter_run p R B r0 hR0 hRp hBp as a (hAp a (List.mem_cons_self a as))
      (fun c hc => hAp c (List.mem_cons_of_mem a hc))

end ScalaImportSorter

/-- In a list sorted by a string key, the elements whose key equals a given
value form one contiguous run. -/
theorem sorted_run_decomp {α : Type} (k : α → String) (v : String) :
    ∀ S : List α, List.Sorted (fun a b => keyLe (k a) (k b)) S →
      ∃ A R B, S = A ++ R ++ B ∧ (∀ c ∈ A, k c ≠ v) ∧ (∀ c ∈ R, k c = v) ∧
        (∀ c ∈ B, k c ≠ v) := by
  intro S
  induction S with
  | nil => exact fun _ => ⟨[], [], [], rfl, by simp, by simp, by simp⟩
  | cons c S' ih =>
    intro hs
    rw [List.sorted_cons] at hs
    obtain ⟨A, R, B, hS, hA, hR, hB⟩ := ih hs.2
    by_cases hkc : k c = v
    · cases hR0 : R with
      | nil =>
        refine ⟨[], [c], A ++ B, ?_, by simp, ?_, ?_⟩
        · rw [hS, hR0]
          simp
        · intro x hx
          rw [List.mem_singleton] at hx
          rw [hx]
          exact hkc
        · intro x hx
          rcases List.mem_append.mp hx with h | h
          exacts [hA x h, hB x h]
      | cons r rs =>
        have hrv : k r = v := hR r (hR0 ▸ List.mem_cons_self r rs)
        have hA0 : A = [] := by
          cases hA0 : A with
          | nil => rfl
          | cons a as =>
            exfalso
            have h1 : keyLe (k c) (k a) := hs.1 a (by rw [hS, hA0]; simp)
            have h2 : keyLe (k a) (k r) := by
              have hp := hs.2
              rw [hS, hA0, List.append_assoc, List.cons_append, List.sorted_cons] at hp
              exact hp.1 r (by rw [hR0]; simp)
            have hav : k a = v := keyLe_antisymm (hrv ▸ h2) (hkc ▸ h1)
            exact hA a (by rw [hA0]; exact List.mem_cons_self a as) hav
        refine ⟨[], c :: R, B, ?_, by simp, ?_, hB⟩
        · rw [hS, hA0]
          simp
        · intro x hx
          rcases List.mem_cons.mp hx with h | h
          exacts [h ▸ hkc, hR x h]
    · refine ⟨c :: A, R, B, ?_, ?_, hR, hB⟩
      · rw [hS]
        simp
      · intro x hx
        rcases List.mem_cons.mp hx with h | h
        exacts [h ▸ hkc, hA x h]

namespace ScalaImportSorter

theorem sortClauses_fancy (cs : List ImportClause) :
    sortClauses true cs = List.insertionSort fancy_le cs := rfl

theorem sortClauses_strict (cs : List ImportClause) :
    sortClauses false cs = List.insertionSort strict_le cs := rfl

theorem sorted_key_sortClauses (cs : List ImportClause) :
    List.Sorted (fun a b => keyLe (fancy_sort_key a) (fancy_sort_key b))
      (sortClauses true cs) := by
  rw [sortClauses_fancy]
  exact (List.sorted_insertionSort fancy_le cs).imp (fun h => (fancy_le_iff _ _).mp h)

theorem sortClauses_fancy_perm (cs : List ImportClause) :
    (sortClauses true cs).Perm cs := by
  rw [sortClauses_fancy]
  exact List.perm_insertionSort fancy_le cs

end ScalaImportSorter

namespace ScalaImportSorter

/-- C1 (amended, proved form): in fancy mode, if distinct paths in the
block have distinct fancy sort keys, then after sorting and merging the
output has exactly one clause for each path present in the input, whose
symbol list is the concatenation, in input order, of the imports of all
input clauses with that path (and no clause for any other path). -/
theorem C1_fancy_merge (cs : List ImportClause) (p : Path)
    (hinj : ∀ c1 ∈ cs, ∀ c2 ∈ cs, fancy_sort_key c1 = fancy_sort_key c2 → c1.path = c2.path) :
    (mergeAdjacent (sortClauses true cs)).filter (fun c => decide (c.path = p)) =
      if p ∈ cs.map ImportClause.path
      then [⟨p, ((cs.filter (fun c => decide (c.path = p))).map ImportClause.imports).flatten⟩]
      else [] := by
  have hperm := sortClauses_fancy_perm cs
  by_cases hp : p ∈ cs.map ImportClause.path
  · obtain ⟨c0, hc0, hc0p⟩ := List.mem_map.mp hp
    have hkey : ∀ x ∈ cs, (x.path = p ↔ fancy_sort_key x = path_key p) := by
      intro x hx
      constructor
      · exact fun h => congrArg path_key h
      · intro h
        have hx0 := hinj x hx c0 hc0 (h.trans (congrArg path_key hc0p).symm)
        rw [hx0, hc0p]
    obtain ⟨A, R, B, hS, hA, hR, hB⟩ :=
      sorted_run_decomp fancy_sort_key (path_key p) _ (sorted_key_sortClauses cs)
    have hfilterS : (sortClauses true cs).filter
        (fun c => decide (fancy_sort_key c = path_key p)) = R := by
      rw [hS, List.filter_append, List.filter_append]
      rw [List.filter_eq_nil_iff.mpr (fun c hc => by simpa using hA c hc),
        List.filter_eq_self.mpr (fun c hc => by simpa using hR c hc),
        List.filter_eq_nil_iff.mpr (fun c hc => by simpa using hB c hc)]
      simp
    have hstab : (sortClauses true cs).filter
        (fun c => decide (fancy_sort_key c = path_key p)) =
        cs.filter (fun c => decide (fancy_sort_key c = path_key p)) := by
      rw [sortClauses_fancy]
      exact filter_insertionSort fancy_le fancy_sort_key fancy_le_iff (path_key p) cs
    have hcsfilter : cs.filter (fun c => decide (fancy_sort_key c = path_key p)) =
        cs.filter (fun c => decide (c.path = p)) :=
      List.filter_congr (fun x hx => by
        simp only [decide_eq_decide]
        exact (hkey x hx).symm)
    have hRfilter : R = cs.filter (fun c => decide (c.path = p)) := by
      rw [← hcsfilter, ← hstab, hfilterS]
    have hmem : ∀ c ∈ sortClauses true cs, c ∈ cs := fun c hc => hperm.subset hc
    have hRp : ∀ c ∈ R, c.path = p := by
      intro c hc
      have hcS : c ∈ sortClauses true cs := by
        rw [hS]
        exact List.mem_append_left _ (List.mem_append_right _ hc)
      exact (hkey c (hmem c hcS)).mpr (hR c hc)
    have hAp : ∀ c ∈ A, c.path ≠ p := by
      intro c hc heq
      have hcS : c ∈ sortClauses true cs := by
        rw [hS]
        exact List.mem_append_left _ (List.mem_append_left _ hc)
      exact hA c hc ((hkey c (hmem c hcS)).mp heq)
    have hBp : ∀ c ∈ B, c.path ≠ p := by
      intro c hc heq
      have hcS : c ∈ sortClauses true cs := by
        rw [hS]
        exact List.mem_append_right _ hc
      exact hB c hc ((hkey c (hmem c hcS)).mp heq)
    have hc0fil : c0 ∈ cs.filter (fun c => decide (c.path = p)) :=
      List.mem_filter.mpr ⟨hc0, by simp [hc0p]⟩
    cases hR0 : R with
    | nil =>
      rw [hR0] at hRfilter
      rw [← hRfilter] at hc0fil
      exact absurd hc0fil (List.not_mem_nil c0)
    | cons r rs =>
      rw [if_pos hp, hS]
      rw [mergeAdjacent_run A R B p r (by rw [hR0]; rfl) hRp hAp hBp]
      rw [hRfilter]
  · rw [if_neg hp]
    refine filter_mergeAdjacent_nil _ p (fun c hc hceq => ?_)
    exact hp (List.mem_map.mpr ⟨c, hperm.subset hc, hceq⟩)

end ScalaImportSorter

open Scala ScalaImportSorter

/-- Concrete clause constructor for the concrete instantiations below: a
clause with the given path segments importing the given plain (unaliased)
names. -/
def mkClause (parts names : List String) : ImportClause :=
  ⟨⟨parts⟩, names.map fun n => ⟨n, none⟩⟩

/-- Concrete block instantiating the amended C1 theorem: two `java.util`
clauses around a `com.foo` clause. -/
def c1Block : List ImportClause :=
  [mkClause ["java", "util"] ["Map"], mkClause ["com", "foo"] ["Bar"],
    mkClause ["java", "util"] ["Set"]]

/-- Witness for C1 (amended): on a concrete fancy-mode block with two
`java.util` clauses, the key-injectivity hypothesis holds and merging
yields exactly one `java.util` clause carrying both import lists. -/
theorem C1_fancy_merge_witness :
    (∀ c1 ∈ c1Block, ∀ c2 ∈ c1Block,
        fancy_sort_key c1 = fancy_sort_key c2 → c1.path = c2.path) ∧
    (mergeAdjacent (sortClauses true c1Block)).filter
        (fun c => decide (c.path = ⟨["java", "util"]⟩)) =
      (if (⟨["java", "util"]⟩ : Path) ∈ c1Block.map ImportClause.path
       then [⟨⟨["java", "util"]⟩,
         ((c1Block.filter (fun c => decide (c.path = ⟨["java", "util"]⟩))).map
           ImportClause.imports).flatten⟩]
       else []) :=
  ⟨by decide, C1_fancy_merge c1Block ⟨["java", "util"]⟩ (by decide)⟩

/-- C1 counterexample (claim as stated, strict policy): in strict mode the
comparator orders by full statement text, so the equal-path clauses
`a.b.c` and `a.b.z` are separated by `a.b.m.x` after sorting, and the
adjacent-merge pass emits two clauses with path `a.b`: the processed
output does not contain exactly one clause per distinct path. -/
theorem C1_counterexample :
    (mergeAdjacent (sortClauses false
        [mkClause ["a", "b"] ["c"], mkClause ["a", "b", "m"] ["x"],
          mkClause ["a", "b"] ["z"]])).map (fun c => c.path.path_parts) =
      [["a", "b"], ["a", "b", "m"], ["a", "b"]] ∧
    ¬ ((mergeAdjacent (sortClauses false
        [mkClause ["a", "b"] ["c"], mkClause ["a", "b", "m"] ["x"],
          mkClause ["a", "b"] ["z"]])).countP
        (fun c => decide (c.path = ⟨["a", "b"]⟩)) = 1) := by
  exact ⟨by decide, by decide⟩

/-! ### C3: content preservation -/

/-- The multiset of (path, name, alias) triples carried by one clause. -/
def clause_triples (c : ImportClause) : Multiset (Path × String × Option String) :=
  ↑(c.imports.map fun i => (c.path, i.name, i.as_name))

/-- The multiset of (path, name, alias) triples carried by a clause list. -/
def block_triples (l : List ImportClause) : Multiset (Path × String × Option String) :=
  (l.map clause_triples).sum

theorem block_triples_cons (c : ImportClause) (l : List ImportClause) :
    block_triples (c :: l) = clause_triples c + block_triples l := by
  simp [block_triples]

theorem block_triples_perm {l l' : List ImportClause} (h : l.Perm l') :
    block_triples l = block_triples l' :=
  List.Perm.sum_eq (h.map clause_triples)

theorem clause_triples_merge (cur c : ImportClause) (h : cur.path = c.path) :
    clause_triples ⟨cur.path, cur.imports ++ c.imports⟩ =
      clause_triples cur + clause_triples c := by
  unfold clause_triples
  rw [List.map_append]
  rw [← Multiset.coe_add]
  congr 1
  rw [h]

theorem block_triples_mergeGo (cur : ImportClause) (l : List ImportClause) :
    block_triples (mergeGo cur l) = clause_triples cur + block_triples l := by
  induction l generalizing cur with
  | nil => simp [mergeGo, block_triples]
  | cons c cs ih =>
    rw [mergeGo]
    by_cases h : cur.path = c.path
    · rw [if_pos h, ih, clause_triples_merge cur c h, block_triples_cons, add_assoc]
    · rw [if_neg h, block_triples_cons, ih, block_triples_cons]

theorem block_triples_mergeAdjacent (l : List ImportClause) :
    block_triples (mergeAdjacent l) = block_triples l := by
  cases l with
  | nil => rfl
  | cons c cs => rw [mergeAdjacent, block_triples_mergeGo, block_triples_cons]

theorem clause_triples_sort_imports (c : ImportClause) :
    clause_triples c.sort_imports = clause_triples c := by
  unfold clause_triples ImportClause.sort_imports
  exact Multiset.coe_eq_coe.mpr ((List.perm_insertionSort import_le c.imports).map _)

theorem block_triples_map_sort_imports (l : List ImportClause) :
    block_triples (l.map ImportClause.sort_imports) = block_triples l := by
  unfold block_triples
  rw [List.map_map]
  congr 1
  exact List.map_congr_left (fun c _ => clause_triples_sort_imports c)

theorem sortClauses_perm (fancy : Bool) (cs : List ImportClause) :
    (sortClauses fancy cs).Perm cs := by
  cases fancy
  · rw [sortClauses_strict]
    exact List.perm_insertionSort strict_le cs
  · rw [sortClauses_fancy]
    exact List.perm_insertionSort fancy_le cs

/-- C3: under either policy, the multiset of (path, name, alias) triples
over the clauses of the processed output equals the multiset over the
input block: merging and sorting never drop, collapse or invent any
entry. -/
theorem C3_content_preservation (fancy : Bool) (cs : List ImportClause) :
    block_triples (outputClauses fancy cs) = block_triples cs := by
  unfold outputClauses
  rw [block_triples_map_sort_imports, block_triples_mergeAdjacent]
  exact block_triples_perm (sortClauses_perm fancy cs)

/-! ### C10: the fancy comparator is path-only; stability of the sort -/

namespace ScalaImportSorter

theorem py_cmp_self (s : String) : py_cmp s s = 0 := by
  unfold py_cmp
  rw [(lexLtB_eq_false_iff s.data s.data).mpr (lt_irrefl s.data)]
  simp

theorem cmp_clauses_fancy_eq_zero {l r : ImportClause} (h : l.path = r.path) :
    cmp_clauses_fancy l r = 0 := by
  unfold cmp_clauses_fancy fancy_sort_key
  rw [h]
  exact py_cmp_self _

theorem fancy_filter_path_stable (cs : List ImportClause) (p : Path) :
    (sortClauses true cs).filter (fun c => decide (c.path = p)) =
      cs.filter (fun c => decide (c.path = p)) := by
  have hpw : ∀ c : ImportClause,
      (decide (c.path = p) && decide (fancy_sort_key c = path_key p)) = decide (c.path = p) := by
    intro c
    by_cases h : c.path = p
    · simp [h, fancy_sort_key]
    · simp [h]
  conv_lhs => rw [List.filter_congr (fun x _ => (hpw x).symm)]
  conv_rhs => rw [List.filter_congr (fun x _ => (hpw x).symm)]
  rw [← List.filter_filter, ← List.filter_filter]
  rw [sortClauses_fancy,
    filter_insertionSort fancy_le fancy_sort_key fancy_le_iff (path_key p) cs]

theorem mergeGo_target_of_cur (cur : ImportClause) (l : List ImportClause) (p : Path)
    (h : cur.path = p) :
    ∃ m ms, (mergeGo cur l).filter (fun c => decide (c.path = p)) = m :: ms ∧
      m.path = p ∧ cur.imports <+: m.imports := by
  obtain ⟨imps, rest, heq, hpre⟩ := mergeGo_first cur l
  refine ⟨⟨cur.path, imps⟩, rest.filter (fun c => decide (c.path = p)), ?_, h, hpre⟩
  rw [heq, List.filter_cons]
  simp [h]

theorem mergeGo_target_later (p : Path) :
    ∀ (l : List ImportClause) (cur : ImportClause), cur.path ≠ p →
      ∀ f rest, l.filter (fun c => decide (c.path = p)) = f :: rest →
        ∃ m ms, (mergeGo cur l).filter (fun c => decide (c.path = p)) = m :: ms ∧
          m.path = p ∧ f.imports <+: m.imports := by
  intro l
  induction l with
  | nil =>
    intro cur _ f rest hf
    exact absurd hf (by simp)
  | cons c cs ih =>
    intro cur hcur f rest hf
    by_cases hc : cur.path = c.path
    · have hcp : c.path ≠ p := fun he => hcur (hc.trans he)
      rw [List.filter_cons] at hf
      simp only [decide_eq_true_eq, hcp, ite_false, if_neg hcp] at hf
      rw [mergeGo, if_pos hc]
      exact ih ⟨cur.path, cur.imports ++ c.imports⟩ hcur f rest hf
    · rw [mergeGo, if_neg hc, List.filter_cons]
      simp only [decide_eq_true_eq, if_neg hcur]
      by_cases hcp : c.path = p
      · rw [List.filter_cons] at hf
        simp only [decide_eq_true_eq, if_pos hcp] at hf
        obtain ⟨hfc, _⟩ := List.cons.inj hf
        obtain ⟨m, ms, heq, hmp, hpre⟩ := mergeGo_target_of_cur c cs p hcp
        exact ⟨m, ms, heq, hmp, hfc ▸ hpre⟩
      · rw [List.filter_cons] at hf
        simp only [decide_eq_true_eq, if_neg hcp] at hf
        exact ih c hcp f rest hf

theorem mergeAdjacent_first_target (l : List ImportClause) (p : Path) (f : ImportClause)
    (rest : List ImportClause) (hf : l.filter (fun c => decide (c.path = p)) = f :: rest) :
    ∃ m ms, (mergeAdjacent l).filter (fun c => decide (c.path = p)) = m :: ms ∧
      m.path = p ∧ f.imports <+: m.imports := by
  cases l with
  | nil => exact absurd hf (by simp)
  | cons c cs =>
    rw [mergeAdjacent]
    by_cases hcp : c.path = p
    · rw [List.filter_cons] at hf
      simp only [decide_eq_true_eq, if_pos hcp] at hf
      obtain ⟨hfc, _⟩ := List.cons.inj hf
      obtain ⟨m, ms, heq, hmp, hpre⟩ := mergeGo_target_of_cur c cs p hcp
      exact ⟨m, ms, heq, hmp, hfc ▸ hpre⟩
    · rw [List.filter_cons] at hf
      simp only [decide_eq_true_eq, if_neg hcp] at hf
      exact mergeGo_target_later p cs c hcp f rest hf

/-- C10: the fancy comparator reads only the clauses' paths, so two
clauses with equal paths compare equal regardless of their imports; the
stable fancy sort therefore preserves the original relative order of the
clauses with any given path, and the first-occurring clause with that path
becomes the clause other equal-path clauses are merged into (its imports
are an initial segment of the merged clause's imports). -/
theorem C10_fancy_path_only (cs : List ImportClause) (p : Path) (l r f : ImportClause)
    (rest : List ImportClause) (hlr : l.path = r.path)
    (hf : cs.filter (fun c => decide (c.path = p)) = f :: rest) :
    cmp_clauses_fancy l r = 0 ∧
    (sortClauses true cs).filter (fun c => decide (c.path = p)) =
      cs.filter (fun c => decide (c.path = p)) ∧
    ∃ m ms, (mergeAdjacent (sortClauses true cs)).filter (fun c => decide (c.path = p)) =
      m :: ms ∧ m.path = p ∧ f.imports <+: m.imports := by
  refine ⟨cmp_clauses_fancy_eq_zero hlr, fancy_filter_path_stable cs p, ?_⟩
  apply mergeAdjacent_first_target
  rw [fancy_filter_path_stable cs p]
  exact hf

end ScalaImportSorter

/-! ### C2: fancy grouping -/

namespace ScalaImportSorter

theorem special_cases_cases (s : String) :
    special_cases s = none ∨ special_cases s = some "aaa0" ∨ special_cases s = some "aaa1" ∨
      special_cases s = some "aaa2" ∨ special_cases s = some "aaa3" := by
  unfold special_cases
  split_ifs <;> simp

theorem isSpecial_congr {c d : ImportClause} (h : c.path = d.path) :
    isSpecial c = isSpecial d := by
  unfold isSpecial
  rw [h]

theorem string_empty_append (s : String) : "" ++ s = s := by
  cases s
  rfl

theorem fancy_key_special (a : ImportClause) (ha : isSpecial a = true) :
    ∃ d : Char, (fancy_sort_key a).data = 'a' :: 'a' :: 'a' :: d :: a.path.path_string.data := by
  unfold isSpecial at ha
  unfold fancy_sort_key path_key
  rcases special_cases_cases a.path.get_top_level with h | h | h | h | h
  · rw [h] at ha
    simp at ha
  · rw [h]
    exact ⟨'0', by rw [String.data_append]; rfl⟩
  · rw [h]
    exact ⟨'1', by rw [String.data_append]; rfl⟩
  · rw [h]
    exact ⟨'2', by rw [String.data_append]; rfl⟩
  · rw [h]
    exact ⟨'3', by rw [String.data_append]; rfl⟩

theorem fancy_key_nonspecial (b : ImportClause) (hb : isSpecial b = false) :
    fancy_sort_key b = b.path.path_string := by
  unfold isSpecial at hb
  unfold fancy_sort_key path_key
  cases h : special_cases b.path.get_top_level with
  | none => rw [Option.getD_none, string_empty_append]
  | some s => rw [h] at hb; simp at hb

theorem special_key_lt (a b : ImportClause) (ha : isSpecial a = true)
    (hb : isSpecial b = false) (hab : keyLe "aab" b.path.path_string) :
    keyLt (fancy_sort_key a) (fancy_sort_key b) := by
  obtain ⟨d, hd⟩ := fancy_key_special a ha
  have h1 : keyLt (fancy_sort_key a) "aab" := by
    rw [keyLt_iff, hd]
    exact List.Lex.cons (List.Lex.cons (List.Lex.rel (by decide)))
  rw [fancy_key_nonspecial b hb] at *
  exact keyLt_of_keyLt_of_keyLe h1 hab

theorem keyLe_iff_not_keyLt {s t : String} : keyLe s t ↔ ¬ keyLt t s := by
  unfold keyLe keyLt
  cases lexLtB t.data s.data <;> simp

theorem sorted_special_partition :
    ∀ S : List ImportClause,
      List.Sorted (fun a b => keyLe (fancy_sort_key a) (fancy_sort_key b)) S →
      (∀ a ∈ S, ∀ b ∈ S, isSpecial a = true → isSpecial b = false →
        keyLt (fancy_sort_key a) (fancy_sort_key b)) →
      ∃ s t, S = s ++ t ∧ (∀ c ∈ s, isSpecial c = true) ∧ (∀ c ∈ t, isSpecial c = false) := by
  intro S
  induction S with
  | nil => exact fun _ _ => ⟨[], [], rfl, by simp, by simp⟩
  | cons c S' ih =>
    intro hs hlt
    rw [List.sorted_cons] at hs
    cases hc : isSpecial c with
    | true =>
      obtain ⟨s, t, hS, hsp, htp⟩ := ih hs.2 (fun a ha b hb =>
        hlt a (List.mem_cons_of_mem c ha) b (List.mem_cons_of_mem c hb))
      exact ⟨c :: s, t, by rw [hS, List.cons_append], fun x hx => by
        rcases List.mem_cons.mp hx with h | h
        exacts [h ▸ hc, hsp x h], htp⟩
    | false =>
      refine ⟨[], c :: S', by simp, by simp, fun x hx => ?_⟩
      rcases List.mem_cons.mp hx with h | h
      · exact h ▸ hc
      · cases hx2 : isSpecial x with
        | false => rfl
        | true =>
          exfalso
          have h1 := hlt x (List.mem_cons_of_mem c h) c (List.mem_cons_self c S') hx2 hc
          have h2 := hs.1 x h
          rw [keyLe_iff_not_keyLt] at h2
          exact h2 h1

end ScalaImportSorter

namespace ScalaImportSorter

theorem mem_mergeGo_special (cur : ImportClause) (l : List ImportClause) (x : ImportClause)
    (hx : x ∈ mergeGo cur l) (hcur : isSpecial cur = false)
    (hl : ∀ c ∈ l, isSpecial c = false) : isSpecial x = false := by
  rcases mem_mergeGo_path cur l x hx with h | h
  · rw [isSpecial_congr h]
    exact hcur
  · obtain ⟨d, hd, hdp⟩ := List.mem_map.mp h
    rw [isSpecial_congr hdp.symm]
    exact hl d hd

theorem mergeGo_split :
    ∀ (s : List ImportClause) (cur : ImportClause) (t : List ImportClause),
      isSpecial cur = true → (∀ c ∈ s, isSpecial c = true) → (∀ c ∈ t, isSpecial c = false) →
      ∃ s' t', mergeGo cur (s ++ t) = s' ++ t' ∧ s' ≠ [] ∧
        (∀ c ∈ s', isSpecial c = true) ∧ (∀ c ∈ t', isSpecial c = false) ∧
        (t' = [] ↔ t = []) := by
  intro s
  induction s with
  | nil =>
    intro cur t hcur _ ht
    cases t with
    | nil =>
      refine ⟨[cur], [], by simp [mergeGo], by simp, ?_, by simp, by simp⟩
      intro c hc
      rw [List.mem_singleton] at hc
      exact hc ▸ hcur
    | cons b bs =>
      have hb := ht b (List.mem_cons_self b bs)
      have hne : cur.path ≠ b.path := fun he => by
        have h2 := isSpecial_congr he
        rw [hcur, hb] at h2
        exact Bool.true_eq_false.mp h2
      refine ⟨[cur], mergeGo b bs, ?_, by simp, ?_, ?_, ?_⟩
      · rw [List.nil_append, mergeGo, if_neg hne, List.singleton_append]
      · intro c hc
        rw [List.mem_singleton] at hc
        exact hc ▸ hcur
      · exact fun c hc => mem_mergeGo_special b bs c hc hb
          (fun d hd => ht d (List.mem_cons_of_mem b hd))
      · exact ⟨fun h => absurd h (mergeGo_ne_nil b bs), fun h => absurd h (by simp)⟩
  | cons a as ih =>
    intro cur t hcur hs ht
    rw [List.cons_append, mergeGo]
    by_cases hca : cur.path = a.path
    · rw [if_pos hca]
      exact ih ⟨cur.path, cur.imports ++ a.imports⟩ t hcur
        (fun c hc => hs c (List.mem_cons_of_mem a hc)) ht
    · rw [if_neg hca]
      obtain ⟨s', t', heq, _, hs', ht', htiff⟩ := ih a t (hs a (List.mem_cons_self a as))
        (fun c hc => hs c (List.mem_cons_of_mem a hc)) ht
      refine ⟨cur :: s', t', by rw [heq, List.cons_append], by simp, ?_, ht', htiff⟩
      intro c hc
      rcases List.mem_cons.mp hc with h | h
      exacts [h ▸ hcur, hs' c h]

theorem mergeAdjacent_split (s t : List ImportClause)
    (hs : ∀ c ∈ s, isSpecial c = true) (ht : ∀ c ∈ t, isSpecial c = false) :
    ∃ s' t', mergeAdjacent (s ++ t) = s' ++ t' ∧ (s' = [] ↔ s = []) ∧
      (∀ c ∈ s', isSpecial c = true) ∧ (∀ c ∈ t', isSpecial c = false) ∧
      (t' = [] ↔ t = []) := by
  cases s with
  | nil =>
    cases t with
    | nil => exact ⟨[], [], rfl, by simp, by simp, by simp, by simp⟩
    | cons b bs =>
      refine ⟨[], mergeGo b bs, by simp [mergeAdjacent], by simp, by simp, ?_, ?_⟩
      · exact fun c hc => mem_mergeGo_special b bs c hc (ht b (List.mem_cons_self b bs))
          (fun d hd => ht d (List.mem_cons_of_mem b hd))
      · exact ⟨fun h => absurd h (mergeGo_ne_nil b bs), fun h => absurd h (by simp)⟩
  | cons a as =>
    obtain ⟨s', t', heq, hs'ne, hs', ht', htiff⟩ := mergeGo_split as a t
      (hs a (List.mem_cons_self a as)) (fun c hc => hs c (List.mem_cons_of_mem a hc)) ht
    refine ⟨s', t', by rw [List.cons_append, mergeAdjacent]; exact heq, ?_, hs', ht', htiff⟩
    exact ⟨fun h => absurd h hs'ne, fun h => absurd h (by simp)⟩

theorem emitLines_nonspecial (t : List ImportClause)
    (ht : ∀ c ∈ t, isSpecial c = false) :
    emitLines true t false = t.map (fun c => c.sort_imports.str_no_indent) := by
  induction t with
  | nil => rfl
  | cons c cs ih =>
    have hc := ht c (List.mem_cons_self c cs)
    simp [emitLines, hc, ih (fun d hd => ht d (List.mem_cons_of_mem c hd))]

theorem emitLines_append_special :
    ∀ s : List ImportClause, (∀ c ∈ s, isSpecial c = true) → s ≠ [] →
      ∀ (t : List ImportClause) (b : Bool),
        emitLines true (s ++ t) b =
          s.map (fun c => c.sort_imports.str_no_indent) ++ emitLines true t true := by
  intro s
  induction s with
  | nil => exact fun _ h => absurd rfl h
  | cons a as ih =>
    intro hs _ t b
    have ha := hs a (List.mem_cons_self a as)
    rw [List.cons_append]
    simp only [emitLines, ha, Bool.true_and, ite_true, List.map_cons]
    cases as with
    | nil => rfl
    | cons a2 as2 =>
      rw [ih (fun c hc => hs c (List.mem_cons_of_mem a hc)) (by simp) t true,
        List.cons_append]

theorem emitLines_enter_nonspecial (t : List ImportClause)
    (ht : ∀ c ∈ t, isSpecial c = false) :
    emitLines true t true =
      if t = [] then []
      else "" :: t.map (fun c => c.sort_imports.str_no_indent) := by
  cases t with
  | nil => rfl
  | cons c cs =>
    rw [if_neg (by simp)]
    have hc := ht c (List.mem_cons_self c cs)
    simp [emitLines, hc, emitLines_nonspecial cs (fun d hd => ht d (List.mem_cons_of_mem c hd))]

theorem str_no_indent_ne_empty (c : ImportClause) : c.str_no_indent ≠ "" := by
  intro h
  have hl := congrArg String.length h
  rw [ImportClause.str_no_indent] at hl
  simp only [String.length_append] at hl
  have h7 : ("import " : String).length = 7 := by decide
  have hdot : ("." : String).length = 1 := by decide
  have h0 : ("" : String).length = 0 := by decide
  omega

/-- C2 (amended, proved form): in fancy mode, provided every non-special
clause's dotted path string is at least "aab" in code-point order (true of
all real top-level package names; the code itself only promises this for
"non-adversarial" names), the merged output splits as a special group
followed by a non-special group, and the emitted lines are the special
group's statements, then exactly one blank line when both groups are
non-empty (and none otherwise), then the non-special group's statements;
no statement line is itself blank. -/
theorem C2_fancy_grouping (cs : List ImportClause)
    (H : ∀ c ∈ cs, isSpecial c = false → keyLe "aab" c.path.path_string) :
    ∃ s t, mergeAdjacent (sortClauses true cs) = s ++ t ∧
      (∀ c ∈ s, isSpecial c = true) ∧ (∀ c ∈ t, isSpecial c = false) ∧
      emitLines true (mergeAdjacent (sortClauses true cs)) false =
        (s.map fun c => c.sort_imports.str_no_indent) ++
          (if s = [] ∨ t = [] then [] else [""]) ++
          (t.map fun c => c.sort_imports.str_no_indent) ∧
      process_import_block true cs =
        String.intercalate "\n"
          (emitLines true (mergeAdjacent (sortClauses true cs)) false) ++ "\n" ∧
      (∀ c : ImportClause, c.sort_imports.str_no_indent ≠ "") := by
  have hlt : ∀ a ∈ sortClauses true cs, ∀ b ∈ sortClauses true cs, isSpecial a = true →
      isSpecial b = false → keyLt (fancy_sort_key a) (fancy_sort_key b) := by
    intro a _ b hb h1 h2
    exact special_key_lt a b h1 h2 (H b ((sortClauses_perm true cs).subset hb) h2)
  obtain ⟨s0, t0, hS, hs0, ht0⟩ :=
    sorted_special_partition _ (sorted_key_sortClauses cs) hlt
  obtain ⟨s', t', hM, _, hs', ht', htiff⟩ := mergeAdjacent_split s0 t0 hs0 ht0
  refine ⟨s', t', by rw [hS]; exact hM, hs', ht', ?_, rfl,
    fun c => str_no_indent_ne_empty _⟩
  rw [hS, hM]
  by_cases hs'0 : s' = []
  · subst hs'0
    rw [List.nil_append, emitLines_nonspecial t' ht']
    simp
  · rw [emitLines_append_special s' hs' hs'0 t' false, emitLines_enter_nonspecial t' ht']
    by_cases ht'0 : t' = []
    · rw [if_pos ht'0, ht'0]
      simp [ht'0]
    · rw [if_neg ht'0]
      simp [hs'0, ht'0]

end ScalaImportSorter

instance (s t : String) : Decidable (keyLe s t) := by
  unfold keyLe
  infer_instance

instance (s t : String) : Decidable (keyLt s t) := by
  unfold keyLt
  infer_instance

/-- Concrete block instantiating the amended C2 theorem. -/
def c2Block : List ImportClause :=
  [mkClause ["com", "foo"] ["Bar"], mkClause ["java", "util"] ["Map"]]

/-- Witness for C2 (amended): on a concrete block with one `java.util` and
one `com.foo` clause, the non-adversarial hypothesis holds and the
conclusion is realized. -/
theorem C2_fancy_grouping_witness :
    (∀ c ∈ c2Block, isSpecial c = false → keyLe "aab" c.path.path_string) ∧
    (∃ s t, mergeAdjacent (sortClauses true c2Block) = s ++ t ∧
      (∀ c ∈ s, isSpecial c = true) ∧ (∀ c ∈ t, isSpecial c = false) ∧
      emitLines true (mergeAdjacent (sortClauses true c2Block)) false =
        (s.map fun c => c.sort_imports.str_no_indent) ++
          (if s = [] ∨ t = [] then [] else [""]) ++
          (t.map fun c => c.sort_imports.str_no_indent) ∧
      process_import_block true c2Block =
        String.intercalate "\n"
          (emitLines true (mergeAdjacent (sortClauses true c2Block)) false) ++ "\n" ∧
      (∀ c : ImportClause, c.sort_imports.str_no_indent ≠ "")) :=
  ⟨by decide, C2_fancy_grouping c2Block (by decide)⟩

/-- C2 counterexample (claim as stated): in fancy mode the sort key of the
non-special clause `import a.b` ("a.b") is lexicographically smaller than
the faked key of the special clause `import java.x` ("aaa0java.x"), so the
non-special clause is emitted first and no blank line is emitted even
though both groups are non-empty. -/
theorem C2_counterexample :
    emitLines true (mergeAdjacent (sortClauses true
        [mkClause ["a"] ["b"], mkClause ["java"] ["x"]])) false =
      ["import a.b", "import java.x"] ∧
    isSpecial (mkClause ["java"] ["x"]) = true ∧
    isSpecial (mkClause ["a"] ["b"]) = false :=
  ⟨by decide, by decide, by decide⟩

/-- Witness for C10: a concrete fancy-mode block with two `java.util`
clauses; the comparator returns 0 on two equal-path clauses with
different symbols, the sorted block keeps the `java.util` clauses in
input order, and the first of them is the merge target. -/
theorem C10_fancy_path_only_witness :
    (c1Block.filter (fun c => decide (c.path = ⟨["java", "util"]⟩)) =
      mkClause ["java", "util"] ["Map"] :: [mkClause ["java", "util"] ["Set"]]) ∧
    ((mkClause ["a", "b"] ["x"]).path = (⟨⟨["a", "b"]⟩, [⟨"y", some "z"⟩]⟩ : ImportClause).path) ∧
    (cmp_clauses_fancy (mkClause ["a", "b"] ["x"]) ⟨⟨["a", "b"]⟩, [⟨"y", some "z"⟩]⟩ = 0 ∧
     (sortClauses true c1Block).filter (fun c => decide (c.path = ⟨["java", "util"]⟩)) =
       c1Block.filter (fun c => decide (c.path = ⟨["java", "util"]⟩)) ∧
     ∃ m ms, (mergeAdjacent (sortClauses true c1Block)).filter
         (fun c => decide (c.path = ⟨["java", "util"]⟩)) = m :: ms ∧
       m.path = ⟨["java", "util"]⟩ ∧
       (mkClause ["java", "util"] ["Map"]).imports <+: m.imports) :=
  ⟨by decide, by decide,
    C10_fancy_path_only c1Block ⟨["java", "util"]⟩ (mkClause ["a", "b"] ["x"])
      ⟨⟨["a", "b"]⟩, [⟨"y", some "z"⟩]⟩ (mkClause ["java", "util"] ["Map"])
      [mkClause ["java", "util"] ["Set"]] (by decide) (by decide)⟩

/-! ### C4: idempotence -/

namespace ScalaImportSorter

theorem mergeGo_key_sublist (cur : ImportClause) (l : List ImportClause) :
    ((mergeGo cur l).map fancy_sort_key).Sublist
      (fancy_sort_key cur :: l.map fancy_sort_key) := by
  induction l generalizing cur with
  | nil => simp [mergeGo]
  | cons c cs ih =>
    rw [mergeGo]
    by_cases h : cur.path = c.path
    · rw [if_pos h]
      refine (ih ⟨cur.path, cur.imports ++ c.imports⟩).trans ?_
      rw [List.map_cons]
      exact List.Sublist.cons₂ _ (List.sublist_cons_self _ _)
    · rw [if_neg h, List.map_cons, List.map_cons]
      exact List.Sublist.cons₂ _ (ih c)

theorem mergeAdjacent_sorted (l : List ImportClause)
    (hs : List.Sorted (fun a b => keyLe (fancy_sort_key a) (fancy_sort_key b)) l) :
    List.Sorted (fun a b => keyLe (fancy_sort_key a) (fancy_sort_key b))
      (mergeAdjacent l) := by
  cases l with
  | nil => exact hs
  | cons c cs =>
    have hsub := mergeGo_key_sublist c cs
    have hpw : List.Pairwise keyLe ((c :: cs).map fancy_sort_key) :=
      List.pairwise_map.mpr hs
    have hpw2 : List.Pairwise keyLe ((mergeGo c cs).map fancy_sort_key) :=
      List.Pairwise.sublist hsub (by rw [List.map_cons] at hpw; exact hpw)
    exact List.pairwise_map.mp hpw2

theorem mergeGo_chain (cur : ImportClause) (l : List ImportClause) :
    List.Chain' (fun a b => a.path ≠ b.path) (mergeGo cur l) := by
  induction l generalizing cur with
  | nil => simp [mergeGo]
  | cons c cs ih =>
    rw [mergeGo]
    by_cases h : cur.path = c.path
    · rw [if_pos h]
      exact ih _
    · rw [if_neg h]
      obtain ⟨imps, rest, heq, _⟩ := mergeGo_first c cs
      rw [heq, List.chain'_cons]
      exact ⟨h, heq ▸ ih c⟩

theorem mergeAdjacent_chain (l : List ImportClause) :
    List.Chain' (fun a b => a.path ≠ b.path) (mergeAdjacent l) := by
  cases l with
  | nil => simp [mergeAdjacent]
  | cons c cs => exact mergeGo_chain c cs

theorem mergeGo_of_chain :
    ∀ (l : List ImportClause) (cur : ImportClause),
      List.Chain' (fun a b => a.path ≠ b.path) (cur :: l) → mergeGo cur l = cur :: l := by
  intro l
  induction l with
  | nil => exact fun cur _ => rfl
  | cons c cs ih =>
    intro cur hch
    rw [List.chain'_cons] at hch
    rw [mergeGo, if_neg hch.1, ih c hch.2]

theorem mergeAdjacent_of_chain (l : List ImportClause)
    (h : List.Chain' (fun a b => a.path ≠ b.path) l) : mergeAdjacent l = l := by
  cases l with
  | nil => rfl
  | cons c cs => exact mergeGo_of_chain cs c h

theorem sort_imports_idem (c : ImportClause) :
    c.sort_imports.sort_imports = c.sort_imports := by
  unfold ImportClause.sort_imports
  congr 1
  exact List.Sorted.insertionSort_eq (List.sorted_insertionSort import_le c.imports)

theorem emitLines_map_sort_imports (l : List ImportClause) :
    ∀ b, emitLines true (l.map ImportClause.sort_imports) b = emitLines true l b := by
  induction l with
  | nil => exact fun _ => rfl
  | cons c cs ih =>
    intro b
    simp only [List.map_cons, emitLines, sort_imports_idem c,
      show isSpecial c.sort_imports = isSpecial c from rfl, ih]

/-- C4 (amended, proved form): the fancy-mode block transformation is
idempotent: processing the clause list underlying a processed block again
yields the identical block text. -/
theorem C4_fancy_idempotent (cs : List ImportClause) :
    process_import_block true (outputClauses true cs) = process_import_block true cs := by
  have hKS2 : List.Sorted (fun a b => keyLe (fancy_sort_key a) (fancy_sort_key b))
      (outputClauses true cs) := by
    have h1 := mergeAdjacent_sorted _ (sorted_key_sortClauses cs)
    unfold outputClauses
    rw [List.Sorted, List.pairwise_map]
    exact h1
  have hsort_eq : sortClauses true (outputClauses true cs) = outputClauses true cs := by
    rw [sortClauses_fancy]
    exact List.Sorted.insertionSort_eq (hKS2.imp (fun h => (fancy_le_iff _ _).mpr h))
  have hchain : List.Chain' (fun a b => a.path ≠ b.path) (outputClauses true cs) := by
    unfold outputClauses
    rw [List.chain'_map]
    exact mergeAdjacent_chain _
  have hmerge_eq : mergeAdjacent (outputClauses true cs) = outputClauses true cs :=
    mergeAdjacent_of_chain _ hchain
  show String.intercalate "\n"
      (emitLines true (mergeAdjacent (sortClauses true (outputClauses true cs))) false) ++ "\n" = _
  rw [hsort_eq, hmerge_eq]
  unfold outputClauses
  rw [emitLines_map_sort_imports]
  rfl

end ScalaImportSorter

/-- C4 counterexample (claim as stated, strict policy): after processing
the block a.b.x / a.b.y / a.b.q.z once, the merged clause renders as
`import a.b.{x, y}`, whose brace-replaced comparison text sorts before
`import a.b.q.z`; re-processing the output therefore swaps the two lines,
so strict-mode processing is not a fixed point. -/
theorem C4_counterexample :
    process_import_block false (outputClauses false
        [mkClause ["a", "b"] ["x"], mkClause ["a", "b"] ["y"],
          mkClause ["a", "b", "q"] ["z"]]) ≠
      process_import_block false
        [mkClause ["a", "b"] ["x"], mkClause ["a", "b"] ["y"],
          mkClause ["a", "b", "q"] ["z"]] := by
  decide

/-! ### C5, C6, C7: the comparators -/

theorem lexCmpCodes_eq_lexLtB : ∀ l m : List Char,
    lexCmpCodes (l.map Char.toNat) (m.map Char.toNat) =
      if lexLtB l m then -1 else if lexLtB m l then 1 else 0 := by
  intro l
  induction l with
  | nil =>
    intro m
    cases m with
    | nil => rfl
    | cons b bs => rfl
  | cons a as ih =>
    intro m
    cases m with
    | nil => rfl
    | cons b bs =>
      simp only [List.map_cons, lexCmpCodes, lexLtB]
      rcases lt_trichotomy a b with h | h | h
      · have hn : a.toNat < b.toNat := h
        simp [h, hn]
      · subst h
        simp [lt_irrefl, ih bs]
      · have hn : b.toNat < a.toNat := h
        have hna : ¬ a.toNat < b.toNat := fun hx => absurd h (lt_asymm hx)
        simp [h, hn, hna, lt_asymm h]

theorem py_cmp_eq_lexCmpCodes (s t : String) :
    py_cmp s t = lexCmpCodes (strCodes s) (strCodes t) := by
  unfold py_cmp strCodes
  exact (lexCmpCodes_eq_lexLtB s.data t.data).symm

/-- C5: the strict comparator compares the clauses' canonical statement
texts (no leading indentation) with every brace character mapped to a
single space, by ordinary code-point lexicographic comparison. -/
theorem C5_strict_comparator (l r : ImportClause) :
    ScalaImportSorter.cmp_clauses l r =
      lexCmpCodes
        ((l.str_no_indent.data.map fun ch => if ch = '\x7b' then ' ' else ch).map Char.toNat)
        ((r.str_no_indent.data.map fun ch => if ch = '\x7b' then ' ' else ch).map Char.toNat) := by
  unfold ScalaImportSorter.cmp_clauses
  rw [py_cmp_eq_lexCmpCodes]
  rfl

theorem getD_special_eq_spec_rank (s : String) :
    (ScalaImportSorter.special_cases s).getD "" = spec_rank s := by
  unfold ScalaImportSorter.special_cases spec_rank
  split_ifs <;> rfl

/-- C7: the fancy comparator is lexicographic code-point comparison of
`rank ++ dotted path string`, where the rank of java, javax, scala, scalax
is aaa0, aaa1, aaa2, aaa3 respectively and the rank of every other
top-level segment is the empty string. -/
theorem C7_fancy_comparator (l r : ImportClause) :
    ScalaImportSorter.cmp_clauses_fancy l r =
      lexCmpCodes (strCodes (spec_rank l.path.get_top_level ++ l.path.path_string))
        (strCodes (spec_rank r.path.get_top_level ++ r.path.path_string)) := by
  unfold ScalaImportSorter.cmp_clauses_fancy ScalaImportSorter.fancy_sort_key
    ScalaImportSorter.path_key
  rw [getD_special_eq_spec_rank, getD_special_eq_spec_rank]
  exact py_cmp_eq_lexCmpCodes _ _

theorem lex_append_lt (P : List Char) (a b : Char) (u v : List Char) (h : a < b) :
    List.Lex (· < ·) (P ++ a :: u) (P ++ b :: v) := by
  induction P with
  | nil => exact List.Lex.rel h
  | cons x xs ih => exact List.Lex.cons ih

theorem alpha_gt_space (c : Char) (h : c.isAlpha = true) : ' ' < c := by
  simp only [Char.isAlpha, Char.isUpper, Char.isLower, Bool.or_eq_true, Bool.and_eq_true,
    decide_eq_true_eq] at h
  show Char.toNat ' ' < c.toNat
  have hv : c.toNat = c.val.toNat := rfl
  have hsp : Char.toNat ' ' = 32 := by decide
  rcases h with ⟨h1, _⟩ | ⟨h1, _⟩
  · have h2 : (65 : UInt32).toNat ≤ c.val.toNat := h1
    have e : (65 : UInt32).toNat = 65 := by decide
    omega
  · have h2 : (97 : UInt32).toNat ≤ c.val.toNat := h1
    have e : (97 : UInt32).toNat = 97 := by decide
    omega

theorem alpha_ne_brace (c : Char) (h : c.isAlpha = true) : c ≠ '\x7b' := by
  intro he
  rw [he] at h
  exact absurd h (by decide)

/-- C6: if the canonical texts of two clauses share a common prefix and
branch with a brace on the left and a letter on the right, the braced
clause sorts strictly first under the strict comparator. -/
theorem C6_brace_before_letter (l r : ImportClause) (P u v : List Char) (c : Char)
    (hl : l.str_no_indent.data = P ++ '\x7b' :: u)
    (hr : r.str_no_indent.data = P ++ c :: v)
    (hc : c.isAlpha = true) :
    ScalaImportSorter.cmp_clauses l r = -1 := by
  unfold ScalaImportSorter.cmp_clauses py_cmp
  have e1 : (if ('\x7b' : Char) = '\x7b' then ' ' else '\x7b') = ' ' := by decide
  have e2 : (if c = '\x7b' then ' ' else c) = c := if_neg (alpha_ne_brace c hc)
  have hlex : List.Lex (· < ·) (ScalaImportSorter.string_for_cmp l).data
      (ScalaImportSorter.string_for_cmp r).data := by
    show List.Lex (· < ·) (l.str_no_indent.data.map fun ch => if ch = '\x7b' then ' ' else ch)
      (r.str_no_indent.data.map fun ch => if ch = '\x7b' then ' ' else ch)
    rw [hl, hr, List.map_append, List.map_append, List.map_cons, List.map_cons, e1, e2]
    exact lex_append_lt _ _ _ _ _ (alpha_gt_space c hc)
  rw [if_pos ((lexLtB_iff _ _).mpr hlex)]

/-- Witness for C6: `import foo.bar.{Bar1, Bar2}` shares the prefix
"import foo.bar." with `import foo.bar.Baz._`, branches with a brace
against the letter B, and sorts strictly first. -/
theorem C6_brace_before_letter_witness :
    ((mkClause ["foo", "bar"] ["Bar1", "Bar2"]).str_no_indent.data =
        ("import foo.bar." : String).data ++ '\x7b' :: ("Bar1, Bar2\x7d" : String).data) ∧
    ((mkClause ["foo", "bar", "Baz"] ["_"]).str_no_indent.data =
        ("import foo.bar." : String).data ++ 'B' :: ("az._" : String).data) ∧
    ('B'.isAlpha = true) ∧
    ScalaImportSorter.cmp_clauses (mkClause ["foo", "bar"] ["Bar1", "Bar2"])
      (mkClause ["foo", "bar", "Baz"] ["_"]) = -1 :=
  ⟨by decide, by decide, by decide,
    C6_brace_before_letter (mkClause ["foo", "bar"] ["Bar1", "Bar2"])
      (mkClause ["foo", "bar", "Baz"] ["_"]) ("import foo.bar." : String).data
      ("Bar1, Bar2\x7d" : String).data ("az._" : String).data 'B'
      (by decide) (by decide) (by decide)⟩

/-! ### C8: blank-line handling of the block collector -/

namespace ScalaImportSorter

/-- C8: for every block (any run of statements each followed by some
number of blank lines), the collector keeps all clauses in order but
retains only the blank-line count following the last statement — interior
counts are discarded — and the per-block emission is the processed block
text followed by exactly that many newline characters. -/
theorem C8_trailing_blanks (fancy : Bool) (init : List (ImportClause × Nat))
    (c : ImportClause) (n : Nat) :
    collectBlock (init ++ [(c, n)]) = ((init ++ [(c, n)]).map Prod.fst, n) ∧
    blockEmit fancy (init ++ [(c, n)]) =
      process_import_block fancy ((init ++ [(c, n)]).map Prod.fst) ++
        String.mk (List.replicate n '\n') := by
  have h1 : collectBlock (init ++ [(c, n)]) = ((init ++ [(c, n)]).map Prod.fst, n) := by
    induction init with
    | nil => rfl
    | cons a tl ih =>
      obtain ⟨a1, a2⟩ := a
      rw [List.cons_append]
      cases htl : tl ++ [(c, n)] with
      | nil => exact absurd htl (by simp)
      | cons b bs =>
        rw [htl] at ih
        simp only [collectBlock, List.map_cons]
        rw [ih]
        simp
  refine ⟨h1, ?_⟩
  unfold blockEmit
  rw [h1]

end ScalaImportSorter

/-! ### C9: strict mode emits no blank lines -/

theorem emitLines_strict (l : List ImportClause) :
    ∀ b, ScalaImportSorter.emitLines false l b =
      l.map (fun c => c.sort_imports.str_no_indent) := by
  induction l with
  | nil => exact fun _ => rfl
  | cons c cs ih =>
    intro b
    simp [ScalaImportSorter.emitLines, ih]

/-- C9: in strict mode the processed block text is exactly the serialized
merged clauses, one per line, joined by single newlines and terminated by
a single newline, and no line is blank (every serialized clause is
non-empty). -/
theorem C9_strict_no_blank_lines (cs : List ImportClause) :
    ScalaImportSorter.process_import_block false cs =
      String.intercalate "\n"
        ((ScalaImportSorter.outputClauses false cs).map ImportClause.str_no_indent) ++ "\n" ∧
    ∀ s ∈ (ScalaImportSorter.outputClauses false cs).map ImportClause.str_no_indent,
      s ≠ "" := by
  constructor
  · unfold ScalaImportSorter.process_import_block ScalaImportSorter.outputClauses
    rw [emitLines_strict, List.map_map]
    rfl
  · intro s hs
    obtain ⟨c, _, hcs⟩ := List.mem_map.mp hs
    exact hcs ▸ ScalaImportSorter.str_no_indent_ne_empty c
